import Mathlib

/-!
Verification of the worm spine-chain animation core (`src/models/Worm.ts`,
`src/models/WormSegment.ts`) and the keyframe radius-interpolation helpers
(`src/helpers/interpolations.ts`).

Numbers are idealised as real numbers; `THREE.Vector3` is modelled by `Vec3`
below, with `normalize` following three.js (`divideScalar(length() || 1)`:
the zero vector normalises to itself).
-/

namespace Wormses

noncomputable section

open Real

/-! ### Vectors (`THREE.Vector3` as the code uses it) -/

@[ext]
structure Vec3 where
  x : ℝ
  y : ℝ
  z : ℝ

instance : Zero Vec3 := ⟨⟨0, 0, 0⟩⟩
instance : Add Vec3 := ⟨fun a b => ⟨a.x + b.x, a.y + b.y, a.z + b.z⟩⟩
instance : Sub Vec3 := ⟨fun a b => ⟨a.x - b.x, a.y - b.y, a.z - b.z⟩⟩
instance : Neg Vec3 := ⟨fun a => ⟨-a.x, -a.y, -a.z⟩⟩
instance : SMul ℝ Vec3 := ⟨fun k a => ⟨k * a.x, k * a.y, k * a.z⟩⟩

@[simp] theorem zero_x : (0 : Vec3).x = 0 := rfl
@[simp] theorem zero_y : (0 : Vec3).y = 0 := rfl
@[simp] theorem zero_z : (0 : Vec3).z = 0 := rfl
@[simp] theorem add_x (a b : Vec3) : (a + b).x = a.x + b.x := rfl
@[simp] theorem add_y (a b : Vec3) : (a + b).y = a.y + b.y := rfl
@[simp] theorem add_z (a b : Vec3) : (a + b).z = a.z + b.z := rfl
@[simp] theorem sub_x (a b : Vec3) : (a - b).x = a.x - b.x := rfl
@[simp] theorem sub_y (a b : Vec3) : (a - b).y = a.y - b.y := rfl
@[simp] theorem sub_z (a b : Vec3) : (a - b).z = a.z - b.z := rfl
@[simp] theorem neg_x (a : Vec3) : (-a).x = -a.x := rfl
@[simp] theorem neg_y (a : Vec3) : (-a).y = -a.y := rfl
@[simp] theorem neg_z (a : Vec3) : (-a).z = -a.z := rfl
@[simp] theorem smul_x (k : ℝ) (a : Vec3) : (k • a).x = k * a.x := rfl
@[simp] theorem smul_y (k : ℝ) (a : Vec3) : (k • a).y = k * a.y := rfl
@[simp] theorem smul_z (k : ℝ) (a : Vec3) : (k • a).z = k * a.z := rfl

theorem mk_eq_zero (a b c : ℝ) : (Vec3.mk a b c = 0) ↔ (a = 0 ∧ b = 0 ∧ c = 0) := by
  constructor
  · intro h
    refine ⟨congrArg Vec3.x h, congrArg Vec3.y h, congrArg Vec3.z h⟩
  · rintro ⟨rfl, rfl, rfl⟩
    rfl

/-- Dot product (`THREE.Vector3.dot`). -/
def dot3 (a b : Vec3) : ℝ := a.x * b.x + a.y * b.y + a.z * b.z

/-- Cross product (`THREE.Vector3.cross` / `crossVectors`). -/
def cross3 (a b : Vec3) : Vec3 :=
  ⟨a.y * b.z - a.z * b.y, a.z * b.x - a.x * b.z, a.x * b.y - a.y * b.x⟩

/-- Squared length of a vector. -/
def normSq (v : Vec3) : ℝ := dot3 v v

/-- Length (`THREE.Vector3.length`). -/
def norm3 (v : Vec3) : ℝ := Real.sqrt (normSq v)

/-- `THREE.Vector3.normalize` is `divideScalar(this.length() || 1)`:
the zero vector is left unchanged, any other vector is scaled to unit length. -/
def normalize3 (v : Vec3) : Vec3 := if norm3 v = 0 then v else (norm3 v)⁻¹ • v

/-- `THREE.Vector3.lerp(b, t)`: each component moves the fraction `t` toward `b`. -/
def lerp3 (a b : Vec3) (t : ℝ) : Vec3 := a + t • (b - a)

/-! ### `src/helpers/interpolations.ts` -/

/-- `RadiusKey = { h: number; r: number }`. -/
structure RadiusKey where
  h : ℝ
  r : ℝ

/-- `clamp01(x)`. -/
def clamp01 (x : ℝ) : ℝ := max 0 (min 1 x)

/-- `lerp(a, b, t)`. -/
def lerp (a b t : ℝ) : ℝ := a + (b - a) * t

/-- `cosineEase(t) = (1 - cos(π·clamp01(t))) · 0.5`. -/
def cosineEase (t : ℝ) : ℝ := (1 - Real.cos (π * clamp01 t)) * 0.5

/-- `smoothstep(t) = s·s·(3 - 2s)` with `s = clamp01(t)`. -/
def smoothstep (t : ℝ) : ℝ := clamp01 t * clamp01 t * (3 - 2 * clamp01 t)

/-- Blend-curve type `FdR = (r0, r1, t) => number`. -/
def FdR : Type := ℝ → ℝ → ℝ → ℝ

def fdR_linear : FdR := fun r0 r1 t => lerp r0 r1 (clamp01 t)

def fdR_cosine : FdR := fun r0 r1 t => lerp r0 r1 (cosineEase t)

def fdR_smooth : FdR := fun r0 r1 t => lerp r0 r1 (smoothstep t)

/-- The bracket scan of `radiusFromKeys` (the `for` loop over consecutive key
pairs): the first pair `(a, b)` with `a.h ≤ h ≤ b.h` yields the blended value;
`none` when no pair brackets `h`. -/
def scanKeys (fdR : FdR) (hgt : ℝ) : List RadiusKey → Option ℝ
  | a :: b :: rest =>
    if a.h ≤ hgt ∧ hgt ≤ b.h then some (fdR a.r b.r ((hgt - a.h) / (b.h - a.h)))
    else scanKeys fdR hgt (b :: rest)
  | _ => none

/-- `keys[keys.length - 1]` for the non-empty list `k :: rest`. -/
def lastKey (k : RadiusKey) : List RadiusKey → RadiusKey
  | [] => k
  | k2 :: rest => lastKey k2 rest

/-- `radiusFromKeys(keys, fdR, h)` from `src/helpers/interpolations.ts`:
empty list defaults to 0.5; heights at or before the first key / at or after
the last key take that key's radius; otherwise the bracket scan runs, falling
through to the last key's radius. -/
def radiusFromKeys (keys : List RadiusKey) (fdR : FdR) (hgt : ℝ) : ℝ :=
  match keys with
  | [] => 0.5
  | k0 :: rest =>
    if hgt ≤ k0.h then k0.r
    else if (lastKey k0 rest).h ≤ hgt then (lastKey k0 rest).r
    else
      match scanKeys fdR hgt (k0 :: rest) with
      | some r => r
      | none => (lastKey k0 rest).r

/-- Strictly ascending key heights (the sortedness contract of `radiusKeys`). -/
def keysSorted (keys : List RadiusKey) : Prop := keys.Chain' fun a b => a.h < b.h

/-! ### `src/models/WormSegment.ts` -/

/-- A spine segment: position, tangent and the derived local frame. -/
structure Segment where
  position : Vec3
  tangent : Vec3
  normal : Vec3
  binormal : Vec3

/-- `WormSegment.updateLocalFrame`: the normal is `ŷ × tangent` normalised
(or `x̂ × tangent` when the tangent is close to `±ŷ`), the binormal is
`tangent × normal` normalised. -/
def updateLocalFrame (s : Segment) : Segment :=
  let n :=
    if |s.tangent.y| < 0.9 then normalize3 (cross3 ⟨0, 1, 0⟩ s.tangent)
    else normalize3 (cross3 ⟨1, 0, 0⟩ s.tangent)
  { s with normal := n, binormal := normalize3 (cross3 s.tangent n) }

/-- The `WormSegment` constructor: clones position, normalises the tangent and
initialises the local frame. -/
def mkSegment (pos tan : Vec3) : Segment :=
  updateLocalFrame { position := pos, tangent := normalize3 tan, normal := 0, binormal := 0 }

/-! ### `src/models/Worm.ts` -/

/-- `WormParams`: every numeric field optional. -/
structure WormParams where
  totalLength : Option ℝ := none
  segmentSpacing : Option ℝ := none
  ringRadius : Option ℝ := none
  ringThickness : Option ℝ := none
  pulsationAmplitude : Option ℝ := none
  pulsationSpeed : Option ℝ := none
  headSpeed : Option ℝ := none
  directionChangeInterval : Option ℝ := none
  turnInertia : Option ℝ := none
  frictionVariation : Option ℝ := none
  maxFrictionSpeed : Option ℝ := none

/-- JavaScript `params.field || default`: an absent field or the (falsy)
value 0 yields the default. -/
def jsOr (v : Option ℝ) (d : ℝ) : ℝ :=
  match v with
  | none => d
  | some x => if x = 0 then d else x

/-- The worm state: resolved configuration, the segment chain, the steering
state, the running clock/frame counter, and the instance-buffer dirty flags. -/
structure WormState where
  totalLength : ℝ
  segmentSpacing : ℝ
  ringRadius : ℝ
  ringThickness : ℝ
  pulsationAmplitude : ℝ
  pulsationSpeed : ℝ
  headSpeed : ℝ
  directionChangeInterval : ℝ
  turnInertia : ℝ
  frictionVariation : ℝ
  maxFrictionSpeed : ℝ
  segments : List Segment
  headDirection : Vec3
  targetDirection : Vec3
  lastDirectionChange : ℝ
  time : ℝ
  frameCount : ℕ
  transformsDirty : Bool
  colorsDirty : Bool

/-- The `Worm` constructor: resolve every numeric parameter with `||`
defaulting, lay `floor(totalLength / segmentSpacing)` segments along the
negative x-axis spaced by `segmentSpacing`, head at the origin, heading and
target direction `(1,0,0)`. -/
def mkWorm (p : WormParams) : WormState :=
  let totalLength := jsOr p.totalLength 20
  let segmentSpacing := jsOr p.segmentSpacing 1.2
  let numSegments := Nat.floor (totalLength / segmentSpacing)
  { totalLength := totalLength
    segmentSpacing := segmentSpacing
    ringRadius := jsOr p.ringRadius 0.6
    ringThickness := jsOr p.ringThickness 0.06
    pulsationAmplitude := jsOr p.pulsationAmplitude 0.8
    pulsationSpeed := jsOr p.pulsationSpeed 2.5
    headSpeed := jsOr p.headSpeed 3.0
    directionChangeInterval := jsOr p.directionChangeInterval 4000
    turnInertia := jsOr p.turnInertia 0.02
    frictionVariation := jsOr p.frictionVariation 0.6
    maxFrictionSpeed := jsOr p.maxFrictionSpeed 1.0
    segments := (List.range numSegments).map fun i : ℕ =>
      mkSegment ⟨-(i : ℝ) * segmentSpacing, 0, 0⟩ ⟨1, 0, 0⟩
    headDirection := ⟨1, 0, 0⟩
    targetDirection := ⟨1, 0, 0⟩
    lastDirectionChange := 0
    time := 0
    frameCount := 0
    transformsDirty := false
    colorsDirty := false }

/-- `Worm.pickNewDirection` with the two `Math.random()` samples made explicit:
yaw in `±0.6π`, pitch in `±0.3π`, converted to a direction **in world
coordinates** (around the world x-axis) and normalised. -/
def pickNewDirection (r1 r2 : ℝ) : Vec3 :=
  let yaw := (r1 - 0.5) * π * 1.2
  let pitch := (r2 - 0.5) * π * 0.6
  normalize3 ⟨Real.cos pitch * Real.cos yaw, Real.sin pitch, Real.cos pitch * Real.sin yaw⟩

/-- The target direction after the retarget check of `updateHeadMovement`. -/
def newTarget (w : WormState) (t r1 r2 : ℝ) : Vec3 :=
  if w.directionChangeInterval < t - w.lastDirectionChange then pickNewDirection r1 r2
  else w.targetDirection

/-- Head-segment update: advance the position by `amount • heading`, copy the
heading into the tangent, recompute the local frame. -/
def moveHead (heading : Vec3) (amount : ℝ) : List Segment → List Segment
  | [] => []
  | s0 :: rest =>
    updateLocalFrame { s0 with position := s0.position + amount • heading, tangent := heading }
      :: rest

/-- `Worm.updateHeadMovement(deltaTime, currentTime)` with the random samples
`r1 r2` explicit: optional retarget, exponential blend of the heading toward
the target by `turnInertia` followed by renormalisation, then Euler step of
the head by `headSpeed * deltaTime`. -/
def updateHeadMovement (w : WormState) (dt t r1 r2 : ℝ) : WormState :=
  let tgt := newTarget w t r1 r2
  let lastChange :=
    if w.directionChangeInterval < t - w.lastDirectionChange then t else w.lastDirectionChange
  let heading := normalize3 (lerp3 w.headDirection tgt w.turnInertia)
  { w with
    targetDirection := tgt
    lastDirectionChange := lastChange
    headDirection := heading
    segments := moveHead heading (w.headSpeed * dt) w.segments }

/-- One step of the body-relaxation sweep of `Worm.updateBodySegments` for the
segment at index `i` (of `n` segments total) behind `leader`: if the distance
to the leader exceeds `spacing`, pull toward it by
`(d - spacing) · min(1, (d - spacing)/spacing) · (0.3 + (i/n)·0.4)`; if the
distance exceeds the `0.001` guard, blend the tangent a tenth toward the
leader direction, renormalise it, and recompute the frame. -/
def relaxStep (spacing : ℝ) (n i : ℕ) (leader cur : Segment) : Segment :=
  let diff := leader.position - cur.position
  let d := norm3 diff
  let v := if spacing < d then normalize3 diff else diff
  let moved :=
    if spacing < d then
      { cur with position := cur.position +
          ((d - spacing) * min 1 ((d - spacing) / spacing) * (0.3 + ((i : ℝ) / (n : ℝ)) * 0.4)) • v }
    else cur
  if 0.001 < d then
    updateLocalFrame { moved with tangent := normalize3 (lerp3 moved.tangent (normalize3 v) 0.1) }
  else moved

/-- The sweep over trailing segments, head outward to tail: each segment reads
the position its leader already has in this pass. -/
def bodySweep (spacing : ℝ) (n : ℕ) : ℕ → Segment → List Segment → List Segment
  | _, _, [] => []
  | i, leader, c :: rest =>
    let c2 := relaxStep spacing n i leader c
    c2 :: bodySweep spacing n (i + 1) c2 rest

/-- `Worm.updateBodySegments`: the head is untouched; segments 1 … n−1 are
relaxed in one sweep. -/
def updateBodySegments (spacing : ℝ) (segs : List Segment) : List Segment :=
  match segs with
  | [] => []
  | s0 :: rest => s0 :: bodySweep spacing segs.length 1 s0 rest

/-- `Worm.COLOR_UPDATE_FREQUENCY` (colors update every N frames). -/
def COLOR_UPDATE_FREQUENCY : ℕ := 2

/-- The instance-buffer effect of `Worm.updateRings` on the dirty flags:
`instanceMatrix.needsUpdate` is set every tick; `instanceColor.needsUpdate`
only when `frameCount % COLOR_UPDATE_FREQUENCY === 0` (per-instance matrix and
color payloads go to the renderer-owned buffer and are not modelled). -/
def updateRingsFlags (w : WormState) : WormState :=
  { w with
    transformsDirty := true
    colorsDirty :=
      if w.frameCount % COLOR_UPDATE_FREQUENCY = 0 then true else w.colorsDirty }

/-- `Worm.update(deltaTime, currentTime)`: advance clock and frame counter,
then head movement, body relaxation, ring update. -/
def update (w : WormState) (dt t r1 r2 : ℝ) : WormState :=
  let w1 := { w with time := w.time + dt, frameCount := w.frameCount + 1 }
  let w2 := updateHeadMovement w1 dt t r1 r2
  let w3 := { w2 with segments := updateBodySegments w2.segmentSpacing w2.segments }
  updateRingsFlags w3

/-- `Worm.getHeadPosition`. -/
def headPosition (w : WormState) : Vec3 :=
  match w.segments with
  | [] => 0
  | s :: _ => s.position

/-- A sequence of ticks, every one with `deltaTime = 0`; each entry carries
`(currentTime, r1, r2)`. -/
def applyZeroDtTicks (w : WormState) : List (ℝ × ℝ × ℝ) → WormState
  | [] => w
  | (t, r1, r2) :: rest => applyZeroDtTicks (update w 0 t r1 r2) rest

/-- The positions of the chain, in order. -/
def posList (w : WormState) : List Vec3 := w.segments.map fun sg => sg.position

/-- Every consecutive pair of positions is at most `spacing` apart. -/
def distsLE (spacing : ℝ) : List Vec3 → Prop
  | p :: q :: rest => norm3 (p - q) ≤ spacing ∧ distsLE spacing (q :: rest)
  | _ => True

/-- Unit tangent and a right-handed orthonormal local frame
(`tangent = normal × binormal`). -/
def goodFrame (sg : Segment) : Prop :=
  norm3 sg.tangent = 1 ∧ norm3 sg.normal = 1 ∧ norm3 sg.binormal = 1 ∧
  dot3 sg.tangent sg.normal = 0 ∧ dot3 sg.tangent sg.binormal = 0 ∧
  dot3 sg.normal sg.binormal = 0 ∧ cross3 sg.normal sg.binormal = sg.tangent

/-! ### Concrete states used by counterexamples and witnesses -/

/-- A segment on the x-axis with the frame `updateLocalFrame` derives for the
tangent `(1,0,0)`. -/
def xSeg (a : ℝ) : Segment :=
  { position := ⟨a, 0, 0⟩, tangent := ⟨1, 0, 0⟩, normal := ⟨0, 0, -1⟩, binormal := ⟨0, 1, 0⟩ }

/-- Position of the `i`-th segment of a chain. -/
def posAt (l : List Segment) (i : ℕ) : Vec3 := (l.getD i (xSeg 0)).position

/-- A one-segment worm state with default configuration values. -/
def wUnit : WormState :=
  { totalLength := 20, segmentSpacing := 1.2, ringRadius := 0.6, ringThickness := 0.06
    pulsationAmplitude := 0.8, pulsationSpeed := 2.5, headSpeed := 3
    directionChangeInterval := 4000, turnInertia := 0.02, frictionVariation := 0.6
    maxFrictionSpeed := 1, segments := [xSeg 0], headDirection := ⟨1, 0, 0⟩
    targetDirection := ⟨1, 0, 0⟩, lastDirectionChange := 0, time := 0, frameCount := 0
    transformsDirty := false, colorsDirty := false }

/-- `wUnit` heading in `(-1, 0, 0)`: opposite the world x-axis. -/
def wBack : WormState := { wUnit with headDirection := ⟨-1, 0, 0⟩ }

/-- `new Worm(scene, { headSpeed: 2 })`. -/
def cfgC4 : WormParams := { headSpeed := some 2 }

/-- `new Worm(scene, { totalLength: 12, segmentSpacing: 1, headSpeed: 0, turnInertia: 1 })`. -/
def cfgC5 : WormParams :=
  { totalLength := some 12, segmentSpacing := some 1, headSpeed := some 0, turnInertia := some 1 }

/-- A config passing the (falsy) value 0 for every numeric field. -/
def cfgZero : WormParams :=
  { totalLength := some 0, segmentSpacing := some 0, ringRadius := some 0
    ringThickness := some 0, pulsationAmplitude := some 0, pulsationSpeed := some 0
    headSpeed := some 0, directionChangeInterval := some 0, turnInertia := some 0
    frictionVariation := some 0, maxFrictionSpeed := some 0 }

theorem normSq_eq (v : Vec3) : normSq v = v.x ^ 2 + v.y ^ 2 + v.z ^ 2 := by
  simp [normSq, dot3]; ring

theorem normSq_nonneg (v : Vec3) : 0 ≤ normSq v := by
  rw [normSq_eq]; positivity

theorem normSq_eq_zero (v : Vec3) : normSq v = 0 ↔ v = 0 := by
  rw [normSq_eq]
  constructor
  · intro h
    have hx : v.x ^ 2 = 0 := by nlinarith [sq_nonneg v.x, sq_nonneg v.y, sq_nonneg v.z]
    have hy : v.y ^ 2 = 0 := by nlinarith [sq_nonneg v.x, sq_nonneg v.y, sq_nonneg v.z]
    have hz : v.z ^ 2 = 0 := by nlinarith [sq_nonneg v.x, sq_nonneg v.y, sq_nonneg v.z]
    ext
    · exact pow_eq_zero_iff two_ne_zero |>.mp hx
    · exact pow_eq_zero_iff two_ne_zero |>.mp hy
    · exact pow_eq_zero_iff two_ne_zero |>.mp hz
  · rintro rfl
    simp

theorem norm3_nonneg (v : Vec3) : 0 ≤ norm3 v := Real.sqrt_nonneg _

theorem norm3_eq_zero (v : Vec3) : norm3 v = 0 ↔ v = 0 := by
  rw [norm3, Real.sqrt_eq_zero (normSq_nonneg v), normSq_eq_zero]

theorem norm3_sq (v : Vec3) : norm3 v ^ 2 = normSq v :=
  Real.sq_sqrt (normSq_nonneg v)

theorem norm3_eq_one (v : Vec3) : norm3 v = 1 ↔ normSq v = 1 := by
  rw [norm3, Real.sqrt_eq_one]

theorem normSq_smul (k : ℝ) (v : Vec3) : normSq (k • v) = k ^ 2 * normSq v := by
  simp [normSq, dot3]; ring

theorem norm3_smul (k : ℝ) (v : Vec3) : norm3 (k • v) = |k| * norm3 v := by
  rw [norm3, normSq_smul, Real.sqrt_mul (sq_nonneg k), Real.sqrt_sq_eq_abs, norm3]

theorem normalize3_eq {v : Vec3} (h : v ≠ 0) : normalize3 v = (norm3 v)⁻¹ • v := by
  rw [normalize3, if_neg (fun h0 => h ((norm3_eq_zero v).mp h0))]

theorem norm3_normalize3 {v : Vec3} (h : v ≠ 0) : norm3 (normalize3 v) = 1 := by
  have hn : norm3 v ≠ 0 := fun h0 => h ((norm3_eq_zero v).mp h0)
  rw [normalize3_eq h, norm3_smul, abs_inv, abs_of_nonneg (norm3_nonneg v),
    inv_mul_cancel₀ hn]

theorem normalize3_of_norm_one {v : Vec3} (h : norm3 v = 1) : normalize3 v = v := by
  rw [normalize3, if_neg (by rw [h]; norm_num), h]
  ext <;> simp

theorem dot3_comm (a b : Vec3) : dot3 a b = dot3 b a := by
  simp [dot3]; ring

theorem dot3_smul_right (k : ℝ) (a b : Vec3) : dot3 a (k • b) = k * dot3 a b := by
  simp [dot3]; ring

theorem dot3_cross_left (a b : Vec3) : dot3 (cross3 a b) a = 0 := by
  simp [dot3, cross3]; ring

theorem dot3_cross_right (a b : Vec3) : dot3 (cross3 a b) b = 0 := by
  simp [dot3, cross3]; ring

theorem dot3_self_cross (a b : Vec3) : dot3 a (cross3 a b) = 0 := by
  rw [dot3_comm]; exact dot3_cross_left a b

theorem dot3_snd_cross (a b : Vec3) : dot3 b (cross3 a b) = 0 := by
  rw [dot3_comm]; exact dot3_cross_right a b

theorem normSq_cross (a b : Vec3) :
    normSq (cross3 a b) = normSq a * normSq b - dot3 a b ^ 2 := by
  simp [normSq, dot3, cross3]; ring

/-- Vector triple product: `a × (b × c) = (a ⬝ c) b − (a ⬝ b) c`. -/
theorem cross3_cross3 (a b c : Vec3) :
    cross3 a (cross3 b c) = dot3 a c • b - dot3 a b • c := by
  ext <;> simp [cross3, dot3] <;> ring

theorem one_smul3 (v : Vec3) : (1 : ℝ) • v = v := by ext <;> simp

theorem smul_sub_zero (v w : Vec3) : v - (0 : ℝ) • w = v := by ext <;> simp

/-! ### Interpolation lemmas (claims C6, C7, C8) -/

theorem clamp01_eq_self {x : ℝ} (h0 : 0 ≤ x) (h1 : x ≤ 1) : clamp01 x = x := by
  rw [clamp01, min_eq_right h1, max_eq_right h0]

theorem lastKey_height_lt (rest : List RadiusKey) (k : RadiusKey)
    (hs : keysSorted (k :: rest)) (hne : rest ≠ []) : k.h < (lastKey k rest).h := by
  induction rest generalizing k with
  | nil => exact absurd rfl hne
  | cons k2 rest2 ih =>
    rw [keysSorted, List.chain'_cons] at hs
    rcases eq_or_ne rest2 [] with h | h
    · subst h
      simpa [lastKey] using hs.1
    · have h2 := ih k2 hs.2 h
      calc k.h < k2.h := hs.1
        _ < (lastKey k2 rest2).h := h2
        _ = (lastKey k (k2 :: rest2)).h := rfl

/-- C6: for a non-empty, sorted key list and any blend curve, `radiusFromKeys`
at a height at or below the first key's height returns the first key's radius,
and at a height at or above the last key's height returns the last key's
radius (flat extrapolation, no overshoot). -/
theorem radiusC6_flat_extrapolation (k0 : RadiusKey) (rest : List RadiusKey)
    (fdR : FdR) (hgt : ℝ) (hs : keysSorted (k0 :: rest)) :
    (hgt ≤ k0.h → radiusFromKeys (k0 :: rest) fdR hgt = k0.r) ∧
    ((lastKey k0 rest).h ≤ hgt → radiusFromKeys (k0 :: rest) fdR hgt = (lastKey k0 rest).r) := by
  constructor
  · intro h1
    simp only [radiusFromKeys]
    rw [if_pos h1]
  · intro h2
    by_cases h1 : hgt ≤ k0.h
    · rcases eq_or_ne rest [] with h | h
      · subst h
        simp only [radiusFromKeys, lastKey]
        rw [if_pos h1]
      · exact absurd (lt_of_lt_of_le (lastKey_height_lt rest k0 hs h) h2) (not_lt.mpr h1)
    · simp only [radiusFromKeys]
      rw [if_neg h1, if_pos h2]

/-- C6 witness: keys `[{h:0, r:1}, {h:2, r:5}]` are sorted; at height 7 (past
the last key) the result is the last radius 5. -/
theorem radiusC6_flat_extrapolation_witness :
    radiusFromKeys [⟨0, 1⟩, ⟨2, 5⟩] fdR_linear 7 = 5 := by
  have h := (radiusC6_flat_extrapolation ⟨0, 1⟩ [⟨2, 5⟩] fdR_linear 7
    (by norm_num [keysSorted, List.chain'_cons])).2 (by norm_num [lastKey])
  simpa [lastKey] using h

/-- C7: the three blend curves agree at the interval endpoints (`t=0` gives
`r0`, `t=1` gives `r1`), and on the keys `[{h:0, r:0}, {h:10, r:1}]` at the
midpoint height 5 all three return exactly 0.5. -/
theorem radiusC7_curves_agree :
    (∀ r0 r1 : ℝ,
      fdR_linear r0 r1 0 = r0 ∧ fdR_cosine r0 r1 0 = r0 ∧ fdR_smooth r0 r1 0 = r0 ∧
      fdR_linear r0 r1 1 = r1 ∧ fdR_cosine r0 r1 1 = r1 ∧ fdR_smooth r0 r1 1 = r1) ∧
    radiusFromKeys [⟨0, 0⟩, ⟨10, 1⟩] fdR_linear 5 = 0.5 ∧
    radiusFromKeys [⟨0, 0⟩, ⟨10, 1⟩] fdR_cosine 5 = 0.5 ∧
    radiusFromKeys [⟨0, 0⟩, ⟨10, 1⟩] fdR_smooth 5 = 0.5 := by
  have c0 : clamp01 0 = 0 := clamp01_eq_self le_rfl (by norm_num)
  have c1 : clamp01 1 = 1 := clamp01_eq_self (by norm_num) le_rfl
  have ch : clamp01 (5 / 10) = 1 / 2 := by
    rw [show (5 : ℝ) / 10 = 1 / 2 by norm_num]
    exact clamp01_eq_self (by norm_num) (by norm_num)
  have key : ∀ f : FdR, radiusFromKeys [⟨0, 0⟩, ⟨10, 1⟩] f 5 = f 0 1 (5 / 10) := by
    intro f
    simp only [radiusFromKeys, scanKeys, lastKey]
    norm_num
  refine ⟨fun r0 r1 => ?_, ?_, ?_, ?_⟩
  · refine ⟨?_, ?_, ?_, ?_, ?_, ?_⟩ <;>
      simp [fdR_linear, fdR_cosine, fdR_smooth, lerp, cosineEase, smoothstep, c0, c1,
        Real.cos_pi] <;> ring
  · rw [key, fdR_linear]
    rw [lerp, ch]
    norm_num
  · rw [key, fdR_cosine]
    rw [lerp, cosineEase, ch, show π * (1 / 2) = π / 2 by ring, Real.cos_pi_div_two]
    norm_num
  · rw [key, fdR_smooth]
    rw [lerp, smoothstep, ch]
    norm_num

/-- C8: `radiusFromKeys` is total on every key list (it is a Lean function,
so it returns a value for unsorted lists too), and whenever the height is not
caught by the first-key guard and the bracket scan finds no consecutive pair
containing the height, the last key's radius is returned (last key wins). -/
theorem radiusC8_last_key_wins (k0 : RadiusKey) (rest : List RadiusKey) (fdR : FdR)
    (hgt : ℝ) (h1 : ¬ hgt ≤ k0.h) (h2 : scanKeys fdR hgt (k0 :: rest) = none) :
    radiusFromKeys (k0 :: rest) fdR hgt = (lastKey k0 rest).r := by
  simp only [radiusFromKeys]
  rw [if_neg h1]
  by_cases h3 : (lastKey k0 rest).h ≤ hgt
  · rw [if_pos h3]
  · rw [if_neg h3, h2]

/-- C8 witness: the unsorted keys `[{h:3, r:1}, {h:0, r:2}]` at height 5 hit no
bracketing pair; the last key's radius 2 is returned. -/
theorem radiusC8_last_key_wins_witness :
    radiusFromKeys [⟨3, 1⟩, ⟨0, 2⟩] fdR_linear 5 = 2 := by
  have h := radiusC8_last_key_wins ⟨3, 1⟩ [⟨0, 2⟩] fdR_linear 5 (by norm_num)
    (by norm_num [scanKeys])
  simpa [lastKey] using h

/-! ### Shape lemmas for `update` (all definitional) -/

theorem update_segments_eq (w : WormState) (dt t r1 r2 : ℝ) :
    (update w dt t r1 r2).segments =
      updateBodySegments w.segmentSpacing
        (moveHead (normalize3 (lerp3 w.headDirection (newTarget w t r1 r2) w.turnInertia))
          (w.headSpeed * dt) w.segments) := rfl

theorem update_headDirection (w : WormState) (dt t r1 r2 : ℝ) :
    (update w dt t r1 r2).headDirection =
      normalize3 (lerp3 w.headDirection (newTarget w t r1 r2) w.turnInertia) := rfl

theorem update_targetDirection (w : WormState) (dt t r1 r2 : ℝ) :
    (update w dt t r1 r2).targetDirection = newTarget w t r1 r2 := rfl

theorem update_lastDirectionChange (w : WormState) (dt t r1 r2 : ℝ) :
    (update w dt t r1 r2).lastDirectionChange =
      if w.directionChangeInterval < t - w.lastDirectionChange then t
      else w.lastDirectionChange := rfl

theorem update_segmentSpacing (w : WormState) (dt t r1 r2 : ℝ) :
    (update w dt t r1 r2).segmentSpacing = w.segmentSpacing := rfl

theorem update_frameCount (w : WormState) (dt t r1 r2 : ℝ) :
    (update w dt t r1 r2).frameCount = w.frameCount + 1 := rfl

theorem update_transformsDirty (w : WormState) (dt t r1 r2 : ℝ) :
    (update w dt t r1 r2).transformsDirty = true := rfl

theorem update_colorsDirty (w : WormState) (dt t r1 r2 : ℝ) :
    (update w dt t r1 r2).colorsDirty =
      if (w.frameCount + 1) % COLOR_UPDATE_FREQUENCY = 0 then true else w.colorsDirty := rfl

theorem updateLocalFrame_position (s : Segment) :
    (updateLocalFrame s).position = s.position := rfl

theorem updateLocalFrame_tangent (s : Segment) :
    (updateLocalFrame s).tangent = s.tangent := rfl

/-! ### Local-frame lemmas (claim C2) -/

theorem normalize3_zero : normalize3 (0 : Vec3) = 0 := by
  rw [normalize3, if_pos ((norm3_eq_zero 0).mpr rfl)]

theorem normalize3_idem (v : Vec3) : normalize3 (normalize3 v) = normalize3 v := by
  rcases eq_or_ne v 0 with h | h
  · subst h
    rw [normalize3_zero]
    exact normalize3_zero
  · exact normalize3_of_norm_one (norm3_normalize3 h)

theorem goodFrame_of_perp (s : Segment) (c : Vec3) (ht : norm3 s.tangent = 1)
    (hc : c ≠ 0) (htc : dot3 s.tangent c = 0) :
    goodFrame { s with normal := normalize3 c,
                       binormal := normalize3 (cross3 s.tangent (normalize3 c)) } := by
  have ht2 : normSq s.tangent = 1 := (norm3_eq_one _).mp ht
  have hn1 : norm3 (normalize3 c) = 1 := norm3_normalize3 hc
  have hn2 : normSq (normalize3 c) = 1 := (norm3_eq_one _).mp hn1
  have htn : dot3 s.tangent (normalize3 c) = 0 := by
    rw [normalize3_eq hc, dot3_smul_right, htc, mul_zero]
  have hb0 : normSq (cross3 s.tangent (normalize3 c)) = 1 := by
    rw [normSq_cross, ht2, hn2, htn]; ring
  have hb1 : norm3 (cross3 s.tangent (normalize3 c)) = 1 := (norm3_eq_one _).mpr hb0
  have hbeq : normalize3 (cross3 s.tangent (normalize3 c)) = cross3 s.tangent (normalize3 c) :=
    normalize3_of_norm_one hb1
  refine ⟨ht, hn1, ?_, htn, ?_, ?_, ?_⟩
  · show norm3 (normalize3 (cross3 s.tangent (normalize3 c))) = 1
    rw [hbeq]; exact hb1
  · show dot3 s.tangent (normalize3 (cross3 s.tangent (normalize3 c))) = 0
    rw [hbeq]; exact dot3_self_cross _ _
  · show dot3 (normalize3 c) (normalize3 (cross3 s.tangent (normalize3 c))) = 0
    rw [hbeq]; exact dot3_snd_cross _ _
  · show cross3 (normalize3 c) (normalize3 (cross3 s.tangent (normalize3 c))) = s.tangent
    rw [hbeq, cross3_cross3]
    rw [show dot3 (normalize3 c) (normalize3 c) = 1 from hn2]
    rw [show dot3 (normalize3 c) s.tangent = 0 from by rw [dot3_comm]; exact htn]
    rw [one_smul3]
    exact smul_sub_zero _ _

theorem normSq_zero : normSq (0 : Vec3) = 0 := by simp [normSq, dot3]

/-- `updateLocalFrame` restores a right-handed orthonormal frame for any unit
tangent: the branch on `|tangent.y| < 0.9` keeps the reference cross product
away from zero. -/
theorem updateLocalFrame_goodFrame (s : Segment) (ht : norm3 s.tangent = 1) :
    goodFrame (updateLocalFrame s) := by
  have ht2 : normSq s.tangent = 1 := (norm3_eq_one _).mp ht
  rw [updateLocalFrame]
  by_cases hy : |s.tangent.y| < 0.9
  · rw [if_pos hy]
    have hnsq : normSq (cross3 ⟨0, 1, 0⟩ s.tangent) = normSq s.tangent - s.tangent.y ^ 2 := by
      simp [normSq, dot3, cross3]; ring
    have hy2 : s.tangent.y ^ 2 < 0.81 := by
      nlinarith [sq_abs s.tangent.y, abs_nonneg s.tangent.y]
    have hc : cross3 ⟨0, 1, 0⟩ s.tangent ≠ 0 := by
      intro h0
      rw [h0, normSq_zero, ht2] at hnsq
      nlinarith
    exact goodFrame_of_perp s _ ht hc (dot3_snd_cross _ _)
  · rw [if_neg hy]
    have hnsq : normSq (cross3 ⟨1, 0, 0⟩ s.tangent) = normSq s.tangent - s.tangent.x ^ 2 := by
      simp [normSq, dot3, cross3]; ring
    have hy2 : (0.81 : ℝ) ≤ s.tangent.y ^ 2 := by
      have h09 : (0.9 : ℝ) ≤ |s.tangent.y| := not_lt.mp hy
      nlinarith [sq_abs s.tangent.y, abs_nonneg s.tangent.y]
    have hx2 : s.tangent.x ^ 2 ≤ normSq s.tangent - s.tangent.y ^ 2 := by
      rw [normSq_eq]
      nlinarith [sq_nonneg s.tangent.z]
    have hc : cross3 ⟨1, 0, 0⟩ s.tangent ≠ 0 := by
      intro h0
      rw [h0, normSq_zero] at hnsq
      nlinarith
    exact goodFrame_of_perp s _ ht hc (dot3_snd_cross _ _)

/-- The tangent blend `lerp(dir, 0.1)` of two unit vectors can never vanish
(`0.9` and `0.1` of two unit lengths cannot cancel). -/
theorem lerp3_tenth_ne_zero {a b : Vec3} (ha : norm3 a = 1) (hb : norm3 b = 1) :
    lerp3 a b 0.1 ≠ 0 := by
  intro h0
  have hb9 : b = (-9 : ℝ) • a := by
    have hx := congrArg Vec3.x h0
    have hy := congrArg Vec3.y h0
    have hz := congrArg Vec3.z h0
    simp [lerp3] at hx hy hz
    ext <;> simp <;> linarith
  have h1 := norm3_smul (-9 : ℝ) a
  rw [← hb9, hb, ha] at h1
  norm_num at h1

theorem relaxStep_goodFrame (spacing : ℝ) (n i : ℕ) (leader cur : Segment)
    (h : goodFrame cur) : goodFrame (relaxStep spacing n i leader cur) := by
  have ht : norm3 cur.tangent = 1 := h.1
  have hdne : 0.001 < norm3 (leader.position - cur.position) →
      leader.position - cur.position ≠ 0 := by
    intro h1 hz
    rw [hz, (norm3_eq_zero 0).mpr rfl] at h1
    norm_num at h1
  simp only [relaxStep]
  split_ifs with h1 h2 h2
  · -- distance above the 0.001 guard and above the rest length: pulled, tangent updated
    apply updateLocalFrame_goodFrame
    have hu : norm3 (normalize3 (normalize3 (leader.position - cur.position))) = 1 := by
      rw [normalize3_idem]
      exact norm3_normalize3 (hdne h1)
    exact norm3_normalize3 (lerp3_tenth_ne_zero ht hu)
  · -- above the 0.001 guard only: tangent updated, position unchanged
    apply updateLocalFrame_goodFrame
    exact norm3_normalize3 (lerp3_tenth_ne_zero ht (norm3_normalize3 (hdne h1)))
  · -- pulled but below the 0.001 guard: only the position changes
    exact h
  · exact h

theorem bodySweep_goodFrame (spacing : ℝ) (n : ℕ) (l : List Segment) :
    ∀ (i : ℕ) (leader : Segment), (∀ sg ∈ l, goodFrame sg) →
      ∀ sg ∈ bodySweep spacing n i leader l, goodFrame sg := by
  induction l with
  | nil =>
    intro i leader _ sg hsg
    simp [bodySweep] at hsg
  | cons c rest ih =>
    intro i leader hl sg hsg
    simp only [bodySweep] at hsg
    rcases List.mem_cons.mp hsg with h0 | h0
    · subst h0
      exact relaxStep_goodFrame _ _ _ _ _ (hl c (by simp))
    · exact ih (i + 1) (relaxStep spacing n i leader c) (fun s hs => hl s (by simp [hs])) sg h0

theorem updateBodySegments_goodFrame (spacing : ℝ) (segs : List Segment)
    (h : ∀ sg ∈ segs, goodFrame sg) :
    ∀ sg ∈ updateBodySegments spacing segs, goodFrame sg := by
  intro sg hsg
  cases segs with
  | nil => simp [updateBodySegments] at hsg
  | cons s0 rest =>
    simp only [updateBodySegments] at hsg
    rcases List.mem_cons.mp hsg with h0 | h0
    · subst h0
      exact h _ (by simp)
    · exact bodySweep_goodFrame _ _ rest 1 s0 (fun s hs => h s (by simp [hs])) sg h0

theorem moveHead_goodFrame (heading : Vec3) (amt : ℝ) (segs : List Segment)
    (hh : norm3 heading = 1) (h : ∀ sg ∈ segs, goodFrame sg) :
    ∀ sg ∈ moveHead heading amt segs, goodFrame sg := by
  intro sg hsg
  cases segs with
  | nil => simp [moveHead] at hsg
  | cons s0 rest =>
    simp only [moveHead] at hsg
    rcases List.mem_cons.mp hsg with h0 | h0
    · subst h0
      exact updateLocalFrame_goodFrame _ hh
    · exact h sg (by simp [h0])

/-! ### Body relaxation (claim C1) -/

theorem relaxStep_position (spacing : ℝ) (n i : ℕ) (leader cur : Segment) :
    (relaxStep spacing n i leader cur).position =
      if spacing < norm3 (leader.position - cur.position) then
        cur.position +
          ((norm3 (leader.position - cur.position) - spacing) *
            min 1 ((norm3 (leader.position - cur.position) - spacing) / spacing) *
            (0.3 + ((i : ℝ) / (n : ℝ)) * 0.4)) • normalize3 (leader.position - cur.position)
      else cur.position := by
  simp only [relaxStep]
  split_ifs with h1 h2 h2 <;> simp [updateLocalFrame_position]

theorem sub_add_smul_smul (p q : Vec3) (k c : ℝ) :
    p - (q + k • (c • (p - q))) = (1 - k * c) • (p - q) := by
  ext <;> simp <;> ring

theorem norm3_axis (a : ℝ) : norm3 ⟨a, 0, 0⟩ = |a| := by
  rw [norm3, normSq_eq]
  simp [Real.sqrt_sq_eq_abs]

theorem norm3_sub_axis (a b : ℝ) : norm3 (Vec3.mk a 0 0 - Vec3.mk b 0 0) = |a - b| := by
  rw [show Vec3.mk a 0 0 - Vec3.mk b 0 0 = Vec3.mk (a - b) 0 0 from by ext <;> simp]
  exact norm3_axis _

theorem normalize3_axis {a : ℝ} (ha : 0 < a) : normalize3 ⟨a, 0, 0⟩ = ⟨1, 0, 0⟩ := by
  have hn : norm3 ⟨a, 0, 0⟩ = a := by
    rw [norm3_axis]
    exact abs_of_pos ha
  rw [normalize3, if_neg (by rw [hn]; exact ne_of_gt ha), hn]
  ext
  · simp
    exact inv_mul_cancel₀ (ne_of_gt ha)
  · simp
  · simp

/-- The scalar core of the contraction bound: moving
`(d - s) · min(1, (d-s)/s) · f` of the way toward the leader with `0 < f ≤ 0.7`
strictly reduces a distance `d` that exceeds the rest length `s`. -/
theorem relax_scalar_lt (d spacing f : ℝ) (hsp : 0 < spacing) (hd : spacing < d)
    (hf0 : 0 < f) (hf1 : f ≤ 0.7) :
    |1 - (d - spacing) * min 1 ((d - spacing) / spacing) * f * d⁻¹| * d < d := by
  have hd0 : 0 < d := lt_trans hsp hd
  have hds : 0 < d - spacing := sub_pos.mpr hd
  have hpull0 : 0 < min 1 ((d - spacing) / spacing) := lt_min one_pos (div_pos hds hsp)
  have hpull1 : min 1 ((d - spacing) / spacing) ≤ 1 := min_le_left _ _
  have hm0 : 0 < (d - spacing) * min 1 ((d - spacing) / spacing) * f :=
    mul_pos (mul_pos hds hpull0) hf0
  have h1 : (d - spacing) * min 1 ((d - spacing) / spacing) * f ≤
      (d - spacing) * min 1 ((d - spacing) / spacing) * 0.7 :=
    mul_le_mul_of_nonneg_left hf1 (mul_pos hds hpull0).le
  have h2 : (d - spacing) * min 1 ((d - spacing) / spacing) ≤ d - spacing := by
    have h3 := mul_le_mul_of_nonneg_left hpull1 hds.le
    simpa using h3
  have hmlt : (d - spacing) * min 1 ((d - spacing) / spacing) * f < d := by nlinarith
  have hc : 0 < 1 - (d - spacing) * min 1 ((d - spacing) / spacing) * f * d⁻¹ := by
    rw [← div_eq_mul_inv, sub_pos]
    exact (div_lt_one hd0).mpr hmlt
  rw [abs_of_pos hc]
  have he : (1 - (d - spacing) * min 1 ((d - spacing) / spacing) * f * d⁻¹) * d =
      d - (d - spacing) * min 1 ((d - spacing) / spacing) * f := by
    field_simp
  rw [he]
  linarith

/-- C1 (amended): one relaxation step of the sweep, measured against the
position its leader already has when the segment is processed, strictly
reduces any leader distance that exceeds `segmentSpacing` (for a positive
spacing and a segment index at most the chain length). -/
theorem wormC1_relax_contracts (spacing : ℝ) (hsp : 0 < spacing) (n i : ℕ) (hin : i ≤ n)
    (leader cur : Segment)
    (hd : spacing < norm3 (leader.position - cur.position)) :
    norm3 (leader.position - (relaxStep spacing n i leader cur).position) <
      norm3 (leader.position - cur.position) := by
  have hd0 : 0 < norm3 (leader.position - cur.position) := lt_trans hsp hd
  have hne : leader.position - cur.position ≠ 0 := by
    intro hz
    rw [hz, (norm3_eq_zero 0).mpr rfl] at hd0
    exact lt_irrefl 0 hd0
  have hf0 : (0 : ℝ) < 0.3 + ((i : ℝ) / (n : ℝ)) * 0.4 := by positivity
  have hf1 : 0.3 + ((i : ℝ) / (n : ℝ)) * 0.4 ≤ 0.7 := by
    have hratio : ((i : ℝ) / (n : ℝ)) ≤ 1 := by
      rcases Nat.eq_zero_or_pos n with hn | hn
      · subst hn
        norm_num
      · rw [div_le_one (by exact_mod_cast hn)]
        exact_mod_cast hin
    linarith
  rw [relaxStep_position, if_pos hd, normalize3_eq hne, sub_add_smul_smul, norm3_smul]
  exact relax_scalar_lt (norm3 (leader.position - cur.position)) spacing
    (0.3 + ((i : ℝ) / (n : ℝ)) * 0.4) hsp hd hf0 hf1

/-- C1 witness for the amended theorem: spacing 1, three segments, leader at
x = 10, follower at the origin; the step strictly reduces the distance 10. -/
theorem wormC1_relax_contracts_witness :
    (0 : ℝ) < 1 ∧ (1 : ℕ) ≤ 3 ∧
    (1 : ℝ) < norm3 ((xSeg 10).position - (xSeg 0).position) ∧
    norm3 ((xSeg 10).position - (relaxStep 1 3 1 (xSeg 10) (xSeg 0)).position) <
      norm3 ((xSeg 10).position - (xSeg 0).position) := by
  have hd : (1 : ℝ) < norm3 ((xSeg 10).position - (xSeg 0).position) := by
    simp only [xSeg]
    rw [norm3_sub_axis]
    norm_num
  exact ⟨by norm_num, by norm_num, hd,
    wormC1_relax_contracts 1 (by norm_num) 3 1 (by norm_num) (xSeg 10) (xSeg 0) hd⟩

/-- C1 refuted as frozen (distances measured across the whole pass): with
spacing 1 and pre-pass positions `x = 10, 0, -1.1`, segment 2 starts `1.1` from
its leader (exceeding the spacing), but the pass first drags segment 1 far
toward the head, and afterwards segment 2 sits `41/15 ≈ 2.73` from segment 1:
the post-pass distance is larger, not smaller. -/
theorem wormC1_counterexample :
    (1 : ℝ) < norm3 (posAt [xSeg 10, xSeg 0, xSeg (-1.1)] 1 -
        posAt [xSeg 10, xSeg 0, xSeg (-1.1)] 2) ∧
    ¬ (norm3 (posAt (updateBodySegments 1 [xSeg 10, xSeg 0, xSeg (-1.1)]) 1 -
          posAt (updateBodySegments 1 [xSeg 10, xSeg 0, xSeg (-1.1)]) 2) <
        norm3 (posAt [xSeg 10, xSeg 0, xSeg (-1.1)] 1 -
          posAt [xSeg 10, xSeg 0, xSeg (-1.1)] 2)) := by
  have h1 : (relaxStep 1 3 1 (xSeg 10) (xSeg 0)).position = ⟨39 / 10, 0, 0⟩ := by
    rw [relaxStep_position]
    rw [show (xSeg 10).position - (xSeg 0).position = Vec3.mk 10 0 0 from by
      ext <;> norm_num [xSeg]]
    rw [norm3_axis, show |(10 : ℝ)| = 10 from by norm_num]
    rw [if_pos (by norm_num), normalize3_axis (by norm_num : (0 : ℝ) < 10)]
    ext <;> norm_num [xSeg]
  have h2 : (relaxStep 1 3 2 (relaxStep 1 3 1 (xSeg 10) (xSeg 0)) (xSeg (-1.1))).position =
      ⟨7 / 6, 0, 0⟩ := by
    rw [relaxStep_position, h1]
    rw [show Vec3.mk (39 / 10) 0 0 - (xSeg (-1.1)).position = Vec3.mk 5 0 0 from by
      ext <;> norm_num [xSeg]]
    rw [norm3_axis, show |(5 : ℝ)| = 5 from by norm_num]
    rw [if_pos (by norm_num), normalize3_axis (by norm_num : (0 : ℝ) < 5)]
    ext <;> norm_num [xSeg]
  have hsweep : updateBodySegments 1 [xSeg 10, xSeg 0, xSeg (-1.1)] =
      [xSeg 10, relaxStep 1 3 1 (xSeg 10) (xSeg 0),
        relaxStep 1 3 2 (relaxStep 1 3 1 (xSeg 10) (xSeg 0)) (xSeg (-1.1))] := rfl
  have hpre : norm3 (posAt [xSeg 10, xSeg 0, xSeg (-1.1)] 1 -
      posAt [xSeg 10, xSeg 0, xSeg (-1.1)] 2) = 11 / 10 := by
    have e1 : posAt [xSeg 10, xSeg 0, xSeg (-1.1)] 1 = Vec3.mk 0 0 0 := rfl
    have e2 : posAt [xSeg 10, xSeg 0, xSeg (-1.1)] 2 = Vec3.mk (-1.1) 0 0 := rfl
    rw [e1, e2, norm3_sub_axis]
    norm_num
  have hpost : norm3 (posAt (updateBodySegments 1 [xSeg 10, xSeg 0, xSeg (-1.1)]) 1 -
      posAt (updateBodySegments 1 [xSeg 10, xSeg 0, xSeg (-1.1)]) 2) = 41 / 15 := by
    have e1 : posAt (updateBodySegments 1 [xSeg 10, xSeg 0, xSeg (-1.1)]) 1 =
        (relaxStep 1 3 1 (xSeg 10) (xSeg 0)).position := rfl
    have e2 : posAt (updateBodySegments 1 [xSeg 10, xSeg 0, xSeg (-1.1)]) 2 =
        (relaxStep 1 3 2 (relaxStep 1 3 1 (xSeg 10) (xSeg 0)) (xSeg (-1.1))).position := rfl
    rw [e1, e2, h1, h2, norm3_sub_axis]
    norm_num
  rw [hpre, hpost]
  norm_num

/-! ### Direction retarget (claim C3) -/

/-- C3 (amended): when a tick fires the retarget check
(`currentTime − lastDirectionChange > directionChangeInterval`), the new
target direction is built from a yaw sampled in `±0.6π` and a pitch sampled in
`±0.3π` **around the world x-axis** (the current heading does not enter the
computation), it is unit length, it is stored as `targetDirection`, and the
timer is reset to the current time. -/
theorem wormC3_world_cone (w : WormState) (dt t r1 r2 : ℝ)
    (h1 : 0 ≤ r1) (h2 : r1 ≤ 1) (h3 : 0 ≤ r2) (h4 : r2 ≤ 1)
    (htrig : w.directionChangeInterval < t - w.lastDirectionChange) :
    (update w dt t r1 r2).targetDirection =
      ⟨Real.cos ((r2 - 0.5) * π * 0.6) * Real.cos ((r1 - 0.5) * π * 1.2),
        Real.sin ((r2 - 0.5) * π * 0.6),
        Real.cos ((r2 - 0.5) * π * 0.6) * Real.sin ((r1 - 0.5) * π * 1.2)⟩ ∧
    norm3 (update w dt t r1 r2).targetDirection = 1 ∧
    |(r1 - 0.5) * π * 1.2| ≤ 0.6 * π ∧
    |(r2 - 0.5) * π * 0.6| ≤ 0.3 * π ∧
    (update w dt t r1 r2).lastDirectionChange = t := by
  have hunit : norm3 ⟨Real.cos ((r2 - 0.5) * π * 0.6) * Real.cos ((r1 - 0.5) * π * 1.2),
      Real.sin ((r2 - 0.5) * π * 0.6),
      Real.cos ((r2 - 0.5) * π * 0.6) * Real.sin ((r1 - 0.5) * π * 1.2)⟩ = 1 := by
    rw [norm3_eq_one, normSq_eq]
    simp only
    linear_combination (Real.cos ((r2 - 0.5) * π * 0.6)) ^ 2 *
        Real.sin_sq_add_cos_sq ((r1 - 0.5) * π * 1.2) +
      Real.sin_sq_add_cos_sq ((r2 - 0.5) * π * 0.6)
  have htgt : (update w dt t r1 r2).targetDirection =
      ⟨Real.cos ((r2 - 0.5) * π * 0.6) * Real.cos ((r1 - 0.5) * π * 1.2),
        Real.sin ((r2 - 0.5) * π * 0.6),
        Real.cos ((r2 - 0.5) * π * 0.6) * Real.sin ((r1 - 0.5) * π * 1.2)⟩ := by
    rw [update_targetDirection, newTarget, if_pos htrig, pickNewDirection]
    exact normalize3_of_norm_one hunit
  have hyaw : |(r1 - 0.5) * π * 1.2| ≤ 0.6 * π := by
    have hr : |r1 - 0.5| ≤ 0.5 := abs_le.mpr ⟨by linarith, by linarith⟩
    calc |(r1 - 0.5) * π * 1.2| = |r1 - 0.5| * (π * 1.2) := by
          rw [mul_assoc, abs_mul, abs_of_pos (by positivity : (0 : ℝ) < π * 1.2)]
      _ ≤ 0.5 * (π * 1.2) := mul_le_mul_of_nonneg_right hr (by positivity)
      _ = 0.6 * π := by ring
  have hpitch : |(r2 - 0.5) * π * 0.6| ≤ 0.3 * π := by
    have hr : |r2 - 0.5| ≤ 0.5 := abs_le.mpr ⟨by linarith, by linarith⟩
    calc |(r2 - 0.5) * π * 0.6| = |r2 - 0.5| * (π * 0.6) := by
          rw [mul_assoc, abs_mul, abs_of_pos (by positivity : (0 : ℝ) < π * 0.6)]
      _ ≤ 0.5 * (π * 0.6) := mul_le_mul_of_nonneg_right hr (by positivity)
      _ = 0.3 * π := by ring
  refine ⟨htgt, ?_, hyaw, hpitch, ?_⟩
  · rw [htgt]
    exact hunit
  · rw [update_lastDirectionChange, if_pos htrig]

/-- C3 witness: on the concrete state `wUnit` at time 5000 (timer 0, interval
4000 — the retarget fires) with both samples `1/2`, the stored target is unit
and the timer is reset. -/
theorem wormC3_world_cone_witness :
    wUnit.directionChangeInterval < 5000 - wUnit.lastDirectionChange ∧
    norm3 (update wUnit 1 5000 (1 / 2) (1 / 2)).targetDirection = 1 ∧
    (update wUnit 1 5000 (1 / 2) (1 / 2)).lastDirectionChange = 5000 := by
  have htrig : wUnit.directionChangeInterval < 5000 - wUnit.lastDirectionChange := by
    norm_num [wUnit]
  have h := wormC3_world_cone wUnit 1 5000 (1 / 2) (1 / 2) (by norm_num) (by norm_num)
    (by norm_num) (by norm_num) htrig
  exact ⟨htrig, h.2.1, h.2.2.2.2⟩

/-- C3 refuted as frozen: were the new target really confined to a cone of yaw
`±0.6π` and pitch `±0.3π` around the **current heading**, its dot product with
the heading could not drop below `cos(0.6π)`. With heading `(−1,0,0)`, a fired
retarget and both samples `1/2`, the code stores `(1,0,0)`, whose dot product
with the heading is `−1 < cos(0.6π)`: the cone is around the world x-axis,
not around the heading. -/
theorem wormC3_counterexample :
    wBack.directionChangeInterval < 5000 - wBack.lastDirectionChange ∧
    norm3 wBack.headDirection = 1 ∧
    dot3 (update wBack 1 5000 (1 / 2) (1 / 2)).targetDirection wBack.headDirection <
      Real.cos (0.6 * π) := by
  refine ⟨by norm_num [wBack, wUnit], ?_, ?_⟩
  · show norm3 ⟨-1, 0, 0⟩ = 1
    rw [norm3_axis]
    norm_num
  · have htgt : (update wBack 1 5000 (1 / 2) (1 / 2)).targetDirection = ⟨1, 0, 0⟩ := by
      rw [update_targetDirection, newTarget, if_pos (by norm_num [wBack, wUnit]),
        pickNewDirection]
      norm_num
      exact normalize3_axis one_pos
    rw [htgt]
    have hdot : dot3 (⟨1, 0, 0⟩ : Vec3) wBack.headDirection = -1 := by
      show dot3 (⟨1, 0, 0⟩ : Vec3) ⟨-1, 0, 0⟩ = -1
      norm_num [dot3]
    rw [hdot]
    have hcos : Real.cos π < Real.cos (0.6 * π) :=
      Real.cos_lt_cos_of_nonneg_of_le_pi (by positivity) le_rfl
        (by nlinarith [Real.pi_pos])
    rw [Real.cos_pi] at hcos
    exact hcos

/-- C2: after a tick, every segment of the chain has a unit tangent and
`{tangent, normal, binormal}` is a right-handed orthonormal frame with
`tangent = normal × binormal`; the frame invariant is preserved by `update`
whenever the steering blend `lerp(headDirection, targetDirection, turnInertia)`
does not degenerate to the zero vector (the only case three.js `normalize`
cannot repair). -/
theorem wormC2_frame_invariant (w : WormState) (dt t r1 r2 : ℝ)
    (hw : ∀ sg ∈ w.segments, goodFrame sg)
    (hmix : lerp3 w.headDirection (newTarget w t r1 r2) w.turnInertia ≠ 0) :
    ∀ sg ∈ (update w dt t r1 r2).segments, goodFrame sg := by
  intro sg hsg
  rw [update_segments_eq] at hsg
  exact updateBodySegments_goodFrame _ _
    (moveHead_goodFrame _ _ _ (norm3_normalize3 hmix) hw) sg hsg

/-- C2 witness: the concrete one-segment worm `wUnit` satisfies the frame
invariant, its steering blend is nonzero, and it keeps the invariant after a
tick. -/
theorem wormC2_frame_invariant_witness :
    (∀ sg ∈ wUnit.segments, goodFrame sg) ∧
    lerp3 wUnit.headDirection (newTarget wUnit 0 0 0) wUnit.turnInertia ≠ 0 ∧
    ∀ sg ∈ (update wUnit 1 0 0 0).segments, goodFrame sg := by
  have h1 : ∀ sg ∈ wUnit.segments, goodFrame sg := by
    intro sg hsg
    simp only [wUnit, List.mem_singleton] at hsg
    subst hsg
    refine ⟨?_, ?_, ?_, ?_, ?_, ?_, ?_⟩ <;>
      norm_num [goodFrame, xSeg, norm3, normSq, dot3, cross3, Real.sqrt_one, Vec3.mk.injEq]
  have h2 : lerp3 wUnit.headDirection (newTarget wUnit 0 0 0) wUnit.turnInertia ≠ 0 := by
    intro h0
    have hx := congrArg Vec3.x h0
    norm_num [wUnit, newTarget, lerp3] at hx
  exact ⟨h1, h2, wormC2_frame_invariant wUnit 1 0 0 0 h1 h2⟩

/-! ### Construction and head-step lemmas (claims C4, C5, C10) -/

theorem lerp3_self (a : Vec3) (t : ℝ) : lerp3 a a t = a := by
  ext <;> simp [lerp3]

theorem zero_smul3 (v : Vec3) : (0 : ℝ) • v = 0 := by
  ext <;> simp

theorem add_zero3 (v : Vec3) : v + 0 = v := by
  ext <;> simp

theorem mkSegment_position (p t : Vec3) : (mkSegment p t).position = p := rfl

theorem mkWorm_segments (p : WormParams) :
    (mkWorm p).segments =
      (List.range (Nat.floor (jsOr p.totalLength 20 / jsOr p.segmentSpacing 1.2))).map
        (fun i : ℕ => mkSegment ⟨-(i : ℝ) * jsOr p.segmentSpacing 1.2, 0, 0⟩ ⟨1, 0, 0⟩) := rfl

theorem headPosition_of_segments (w : WormState) (s0 : Segment) (rest : List Segment)
    (hs : w.segments = s0 :: rest) : headPosition w = s0.position := by
  unfold headPosition
  rw [hs]

theorem range_map_head (n : ℕ) (hn : 1 ≤ n) (f : ℕ → Segment) :
    ∃ rest, (List.range n).map f = f 0 :: rest := by
  obtain ⟨k, rfl⟩ := Nat.exists_eq_add_of_le hn
  rw [add_comm, List.range_succ_eq_map, List.map_cons]
  exact ⟨_, rfl⟩

/-- The head position after a tick: its pre-tick position plus
`headSpeed · deltaTime` along the post-tick heading. -/
theorem update_head_step (w : WormState) (dt t r1 r2 : ℝ) (s0 : Segment)
    (rest : List Segment) (hs : w.segments = s0 :: rest) :
    headPosition (update w dt t r1 r2) =
      s0.position + (w.headSpeed * dt) • (update w dt t r1 r2).headDirection := by
  obtain ⟨tail, htail⟩ : ∃ tail, (update w dt t r1 r2).segments =
      updateLocalFrame { s0 with
        position := s0.position + (w.headSpeed * dt) •
          normalize3 (lerp3 w.headDirection (newTarget w t r1 r2) w.turnInertia),
        tangent := normalize3 (lerp3 w.headDirection (newTarget w t r1 r2) w.turnInertia) }
        :: tail := by
    rw [update_segments_eq, hs]
    exact ⟨_, rfl⟩
  rw [headPosition_of_segments _ _ _ htail, updateLocalFrame_position, update_headDirection]

/-- C4: for the freshly constructed worm with `headSpeed = 2`, one tick with
`deltaTime = 1` at `currentTime = 0` (no retarget fires) moves the head by
exactly `2 • headingDirection` — the heading stays `(1,0,0)` — and the
relaxation step applied to any trailing segment sitting exactly at the rest
length `segmentSpacing` from its leader leaves its position unchanged. -/
theorem wormC4_euler_step :
    headPosition (update (mkWorm cfgC4) 1 0 0 0) =
      headPosition (mkWorm cfgC4) +
        (2 : ℝ) • (update (mkWorm cfgC4) 1 0 0 0).headDirection ∧
    (update (mkWorm cfgC4) 1 0 0 0).headDirection = ⟨1, 0, 0⟩ ∧
    ∀ leader cur : Segment,
      norm3 (leader.position - cur.position) = (mkWorm cfgC4).segmentSpacing →
      (relaxStep (mkWorm cfgC4).segmentSpacing (mkWorm cfgC4).segments.length 1
          leader cur).position = cur.position := by
  have hsp : (mkWorm cfgC4).segmentSpacing = 1.2 := by
    norm_num [mkWorm, cfgC4, jsOr]
  have hspeed : (mkWorm cfgC4).headSpeed = 2 := by
    norm_num [mkWorm, cfgC4, jsOr]
  obtain ⟨rest, hr⟩ : ∃ rest,
      (mkWorm cfgC4).segments = mkSegment ⟨0, 0, 0⟩ ⟨1, 0, 0⟩ :: rest := by
    rw [mkWorm_segments]
    have hN : (1 : ℕ) ≤ Nat.floor (jsOr cfgC4.totalLength 20 / jsOr cfgC4.segmentSpacing 1.2) := by
      apply Nat.le_floor
      norm_num [cfgC4, jsOr]
    obtain ⟨rest, hr⟩ := range_map_head _ hN
      (fun i : ℕ => mkSegment ⟨-(i : ℝ) * jsOr cfgC4.segmentSpacing 1.2, 0, 0⟩ ⟨1, 0, 0⟩)
    rw [hr]
    refine ⟨rest, ?_⟩
    congr 2
    ext <;> norm_num
  have hH : (update (mkWorm cfgC4) 1 0 0 0).headDirection = ⟨1, 0, 0⟩ := by
    rw [update_headDirection]
    rw [show newTarget (mkWorm cfgC4) 0 0 0 = (⟨1, 0, 0⟩ : Vec3) from by
      rw [newTarget, if_neg (by
        norm_num [show (mkWorm cfgC4).directionChangeInterval = (4000 : ℝ) from rfl,
          show (mkWorm cfgC4).lastDirectionChange = (0 : ℝ) from rfl])]
      rfl]
    rw [show (mkWorm cfgC4).headDirection = (⟨1, 0, 0⟩ : Vec3) from rfl, lerp3_self]
    exact normalize3_axis one_pos
  refine ⟨?_, hH, ?_⟩
  · rw [update_head_step (mkWorm cfgC4) 1 0 0 0 _ _ hr,
      headPosition_of_segments _ _ _ hr, hspeed, mul_one]
  · intro leader cur hdist
    rw [relaxStep_position, if_neg (by rw [hdist]; exact lt_irrefl _)]

/-- C4 witness: a leader/follower pair exactly `1.2` apart (the resolved
spacing of `cfgC4`) is left in place by the relaxation step. -/
theorem wormC4_euler_step_witness :
    norm3 ((xSeg 1.2).position - (xSeg 0).position) = (mkWorm cfgC4).segmentSpacing ∧
    (relaxStep (mkWorm cfgC4).segmentSpacing (mkWorm cfgC4).segments.length 1
        (xSeg 1.2) (xSeg 0)).position = (xSeg 0).position := by
  have hd : norm3 ((xSeg 1.2).position - (xSeg 0).position) = (mkWorm cfgC4).segmentSpacing := by
    show norm3 (Vec3.mk 1.2 0 0 - Vec3.mk 0 0 0) = _
    rw [norm3_sub_axis]
    norm_num [mkWorm, cfgC4, jsOr]
  exact ⟨hd, wormC4_euler_step.2.2 (xSeg 1.2) (xSeg 0) hd⟩

/-! ### Zero-delta ticks (claim C5) -/

theorem bodySweep_positions (spacing : ℝ) (n : ℕ) (l : List Segment) :
    ∀ (i : ℕ) (leader : Segment),
      distsLE spacing (leader.position :: l.map (fun sg => sg.position)) →
      (bodySweep spacing n i leader l).map (fun sg => sg.position) =
        l.map (fun sg => sg.position) := by
  induction l with
  | nil =>
    intro i leader _
    simp [bodySweep]
  | cons c rest ih =>
    intro i leader hdist
    simp only [List.map_cons, distsLE] at hdist
    obtain ⟨h1, h2⟩ := hdist
    have hpos : (relaxStep spacing n i leader c).position = c.position := by
      rw [relaxStep_position, if_neg (not_lt.mpr h1)]
    simp only [bodySweep, List.map_cons]
    rw [hpos]
    congr 1
    apply ih (i + 1) (relaxStep spacing n i leader c)
    rw [hpos]
    exact h2

/-- A tick with `deltaTime = 0` moves no segment, as long as no consecutive
pair of the chain is stretched beyond the rest length. -/
theorem update_posList (w : WormState) (t r1 r2 : ℝ)
    (hd : distsLE w.segmentSpacing (posList w)) :
    posList (update w 0 t r1 r2) = posList w := by
  simp only [posList, update_segments_eq] at hd ⊢
  rcases hseg : w.segments with _ | ⟨s0, rest⟩
  · simp [moveHead, updateBodySegments]
  · rw [hseg] at hd
    have hs0 : (updateLocalFrame { s0 with
        position := s0.position + (w.headSpeed * 0) •
          normalize3 (lerp3 w.headDirection (newTarget w t r1 r2) w.turnInertia),
        tangent := normalize3 (lerp3 w.headDirection (newTarget w t r1 r2) w.turnInertia)
        }).position = s0.position := by
      rw [updateLocalFrame_position]
      show s0.position + (w.headSpeed * 0) • _ = s0.position
      rw [mul_zero, zero_smul3, add_zero3]
    simp only [moveHead, updateBodySegments, List.map_cons]
    rw [hs0]
    congr 1
    apply bodySweep_positions
    rw [hs0]
    rw [List.map_cons] at hd
    exact hd

theorem cfgC5_spacing : (mkWorm cfgC5).segmentSpacing = 1 := by
  norm_num [mkWorm, cfgC5, jsOr]

theorem cfgC5_posList : posList (mkWorm cfgC5) =
    (List.range 12).map (fun i : ℕ => Vec3.mk (-(i : ℝ) * 1) 0 0) := by
  have hsp : jsOr cfgC5.segmentSpacing 1.2 = 1 := by norm_num [cfgC5, jsOr]
  have htl : jsOr cfgC5.totalLength 20 = 12 := by norm_num [cfgC5, jsOr]
  have hN : Nat.floor (jsOr cfgC5.totalLength 20 / jsOr cfgC5.segmentSpacing 1.2) = 12 := by
    rw [hsp, htl]
    norm_num
  rw [posList, mkWorm_segments, hN, List.map_map]
  simp only [hsp]
  rfl

theorem cfgC5_distsLE : distsLE (mkWorm cfgC5).segmentSpacing (posList (mkWorm cfgC5)) := by
  rw [cfgC5_spacing, cfgC5_posList]
  rw [show List.range 12 = [0, 1, 2, 3, 4, 5, 6, 7, 8, 9, 10, 11] from rfl]
  simp only [List.map_cons, List.map_nil]
  simp only [distsLE, norm3_sub_axis]
  norm_num

/-- C5: the worm built with `totalLength = 12`, `segmentSpacing = 1`, head at
the origin, `headSpeed = 0` and `turnInertia = 1`, ticked any number of times
with `deltaTime = 0` (arbitrary clock values and random samples), keeps every
segment position unchanged. -/
theorem wormC5_zero_dt_identity (ticks : List (ℝ × ℝ × ℝ)) :
    posList (applyZeroDtTicks (mkWorm cfgC5) ticks) = posList (mkWorm cfgC5) := by
  suffices h : ∀ (ticks : List (ℝ × ℝ × ℝ)) (w : WormState),
      w.segmentSpacing = (mkWorm cfgC5).segmentSpacing →
      posList w = posList (mkWorm cfgC5) →
      posList (applyZeroDtTicks w ticks) = posList (mkWorm cfgC5) from
    h ticks (mkWorm cfgC5) rfl rfl
  intro ticks
  induction ticks with
  | nil =>
    intro w _ h2
    exact h2
  | cons tk rest ih =>
    intro w h1 h2
    obtain ⟨t, r1, r2⟩ := tk
    simp only [applyZeroDtTicks]
    have hstep : posList (update w 0 t r1 r2) = posList w := by
      apply update_posList
      rw [h1, h2]
      exact cfgC5_distsLE
    apply ih
    · rw [update_segmentSpacing]
      exact h1
    · rw [hstep]
      exact h2

/-! ### Dirty flags (claim C9) -/

/-- C9: every tick marks the instance transform buffer dirty, and marks the
instance color buffer dirty exactly on the ticks whose frame count (after the
increment at the start of `update`) is divisible by
`COLOR_UPDATE_FREQUENCY = 2`. -/
theorem wormC9_dirty_flags (w : WormState) (dt t r1 r2 : ℝ)
    (hc : w.colorsDirty = false) :
    (update w dt t r1 r2).transformsDirty = true ∧
    ((update w dt t r1 r2).colorsDirty = true ↔
      (w.frameCount + 1) % COLOR_UPDATE_FREQUENCY = 0) := by
  refine ⟨update_transformsDirty w dt t r1 r2, ?_⟩
  rw [update_colorsDirty, hc]
  by_cases h : (w.frameCount + 1) % COLOR_UPDATE_FREQUENCY = 0
  · rw [if_pos h]
    simp [h]
  · rw [if_neg h]
    simp [h]

/-- C9 witness: on the concrete state `wUnit` (color flag clear, frame count
0), the first tick marks transforms dirty and the color flag is set exactly
when `1 % 2 = 0` (it is not). -/
theorem wormC9_dirty_flags_witness :
    wUnit.colorsDirty = false ∧
    ((update wUnit 1 0 0 0).transformsDirty = true ∧
      ((update wUnit 1 0 0 0).colorsDirty = true ↔
        (wUnit.frameCount + 1) % COLOR_UPDATE_FREQUENCY = 0)) :=
  ⟨rfl, wormC9_dirty_flags wUnit 1 0 0 0 rfl⟩

/-! ### Truthiness defaulting (claim C10) -/

/-- C10: passing the value 0 for every numeric configuration field yields the
built-in defaults (`||` defaulting treats 0 as absent), and a worm configured
with `headSpeed = 0` advances its head at the default speed 3.0 per time unit
(its heading stays `(1,0,0)` when no retarget fires). -/
theorem wormC10_zero_config_defaults :
    (mkWorm cfgZero).totalLength = 20 ∧
    (mkWorm cfgZero).segmentSpacing = 1.2 ∧
    (mkWorm cfgZero).ringRadius = 0.6 ∧
    (mkWorm cfgZero).ringThickness = 0.06 ∧
    (mkWorm cfgZero).pulsationAmplitude = 0.8 ∧
    (mkWorm cfgZero).pulsationSpeed = 2.5 ∧
    (mkWorm cfgZero).headSpeed = 3.0 ∧
    (mkWorm cfgZero).directionChangeInterval = 4000 ∧
    (mkWorm cfgZero).turnInertia = 0.02 ∧
    (mkWorm cfgZero).frictionVariation = 0.6 ∧
    (mkWorm cfgZero).maxFrictionSpeed = 1.0 ∧
    ∀ dt r1 r2 : ℝ,
      headPosition (update (mkWorm cfgZero) dt 0 r1 r2) =
        headPosition (mkWorm cfgZero) +
          (3 * dt) • (update (mkWorm cfgZero) dt 0 r1 r2).headDirection ∧
      (update (mkWorm cfgZero) dt 0 r1 r2).headDirection = ⟨1, 0, 0⟩ := by
  have hspeed : (mkWorm cfgZero).headSpeed = 3 := by
    norm_num [mkWorm, cfgZero, jsOr]
  obtain ⟨rest, hr⟩ : ∃ rest,
      (mkWorm cfgZero).segments = mkSegment ⟨0, 0, 0⟩ ⟨1, 0, 0⟩ :: rest := by
    rw [mkWorm_segments]
    have hN : (1 : ℕ) ≤
        Nat.floor (jsOr cfgZero.totalLength 20 / jsOr cfgZero.segmentSpacing 1.2) := by
      apply Nat.le_floor
      norm_num [cfgZero, jsOr]
    obtain ⟨rest, hr⟩ := range_map_head _ hN
      (fun i : ℕ => mkSegment ⟨-(i : ℝ) * jsOr cfgZero.segmentSpacing 1.2, 0, 0⟩ ⟨1, 0, 0⟩)
    rw [hr]
    refine ⟨rest, ?_⟩
    congr 2
    ext <;> norm_num
  have hint : (mkWorm cfgZero).directionChangeInterval = 4000 := by
    norm_num [mkWorm, cfgZero, jsOr]
  have hH : ∀ dt r1 r2 : ℝ, (update (mkWorm cfgZero) dt 0 r1 r2).headDirection = ⟨1, 0, 0⟩ := by
    intro dt r1 r2
    rw [update_headDirection]
    rw [show newTarget (mkWorm cfgZero) 0 r1 r2 = (mkWorm cfgZero).targetDirection from by
      rw [newTarget, if_neg (by
        rw [hint, show (mkWorm cfgZero).lastDirectionChange = (0 : ℝ) from rfl]
        norm_num)]]
    rw [show (mkWorm cfgZero).headDirection = (⟨1, 0, 0⟩ : Vec3) from rfl,
      show (mkWorm cfgZero).targetDirection = (⟨1, 0, 0⟩ : Vec3) from rfl, lerp3_self]
    exact normalize3_axis one_pos
  refine ⟨?_, ?_, ?_, ?_, ?_, ?_, ?_, hint, ?_, ?_, ?_, ?_⟩
  · norm_num [mkWorm, cfgZero, jsOr]
  · norm_num [mkWorm, cfgZero, jsOr]
  · norm_num [mkWorm, cfgZero, jsOr]
  · norm_num [mkWorm, cfgZero, jsOr]
  · norm_num [mkWorm, cfgZero, jsOr]
  · norm_num [mkWorm, cfgZero, jsOr]
  · norm_num [mkWorm, cfgZero, jsOr]
  · norm_num [mkWorm, cfgZero, jsOr]
  · norm_num [mkWorm, cfgZero, jsOr]
  · norm_num [mkWorm, cfgZero, jsOr]
  · intro dt r1 r2
    refine ⟨?_, hH dt r1 r2⟩
    rw [update_head_step (mkWorm cfgZero) dt 0 r1 r2 _ _ hr,
      headPosition_of_segments _ _ _ hr, hspeed]

end

end Wormses
